import Mathlib

/-!
A shallow embedding of the "longest concatenated word" program (src/main.c).

The program builds a trie over the 26-letter lowercase alphabet from a list
of input words.  While inserting a word, every time the descent passes a node
that already terminates a previously inserted word, the remaining suffix of
the word is recorded as a "missing" break candidate; a word with at least one
candidate becomes a pending record.  After construction, each pending
record's suffixes are tested with the recursive matcher is_in_trie, and the
first success marks the word as a confirmed concatenated word, updating the
longest / second-longest ranking and the total count.
-/

namespace LongestWord

/-- A letter is an index into the 26-entry child array (INDEX(x) = x - 'a'). -/
abbrev Letter := Fin 26

/-- A word is a list of letters (the C code's char arrays with explicit length). -/
abbrev Word := List Letter

/-- struct trie: a word_end flag plus 26 optional child pointers. -/
inductive Trie : Type where
  | mk : Bool → (Letter → Option Trie) → Trie

/-- The word_end field of a trie node. -/
def Trie.word_end : Trie → Bool
  | .mk b _ => b

/-- The children array of a trie node. -/
def Trie.children : Trie → Letter → Option Trie
  | .mk _ f => f

/-- A freshly calloc'd trie node: word_end clear, all children absent. -/
def emptyTrie : Trie := .mk false fun _ => none

/-- Store a child pointer into slot c of a children array. -/
def setChild (f : Letter → Option Trie) (c : Letter) (t : Trie) : Letter → Option Trie :=
  fun j => if j = c then some t else f j

/-- insert(node, word, offset, len, missing) from src/main.c, with the
word/offset/len triple represented by the list of unconsumed letters.
If letters remain and the node already ends a known word, the remaining
suffix is pushed onto the missing list; a missing child is freshly
allocated; after the last letter the node's word_end is set.  Returns the
updated node together with the accumulated missing list. -/
def insert : Trie → Word → List Word → Trie × List Word
  | node, [], missing => (.mk true node.children, missing)
  | node, c :: rest, missing =>
      let missing1 := if node.word_end then (c :: rest) :: missing else missing
      let child := (node.children c).getD emptyTrie
      let res := insert child rest missing1
      (.mk node.word_end (setChild node.children c res.1), res.2)

/-- is_in_trie(node, word, len) from src/main.c, made total with an explicit
recursion-depth budget; the program's recursion is reproduced verbatim,
including the restart at the (global) root when the current node ends a
known word.  Exhausted fuel yields false; the lemmas below show the result
is fuel-independent once the budget reaches 2*len+1, provided the root does
not itself terminate a word. -/
def is_in_trieF (root : Trie) : Nat → Option Trie → Word → Bool
  | 0, _, _ => false
  | _ + 1, none, _ => false
  | _ + 1, some node, [] => node.word_end
  | fuel + 1, some node, c :: cs =>
      is_in_trieF root fuel (node.children c) cs ||
        (node.word_end && is_in_trieF root fuel (some root) (c :: cs))

/-- is_in_trie with the sufficient fuel budget 2*len+1. -/
def is_in_trie (root : Trie) (node : Option Trie) (w : Word) : Bool :=
  is_in_trieF root (2 * w.length + 1) node w

/-- Follow a path of letters down from a node. -/
def trieFind : Trie → Word → Option Trie
  | t, [] => some t
  | t, c :: cs =>
      match t.children c with
      | some u => trieFind u cs
      | none => none

/-- Dictionary membership: the path of w exists and ends at a word_end node. -/
def trieMem (t : Trie) (w : Word) : Bool :=
  match trieFind t w with
  | some u => u.word_end
  | none => false

/-- The ranking state of main's verification loop: longest and second
longest confirmed word (with their lengths) and the running total. -/
structure Rank where
  longest : Option Word
  longest_len : Nat
  oldlongest : Option Word
  oldlongest_len : Nat
  total : Nat
  deriving DecidableEq

/-- The initial ranking state: both slots NULL, lengths and total zero. -/
def initRank : Rank := ⟨none, 0, none, 0, 0⟩

/-- The body of the matched branch in main's verification loop: install the
word as new longest (demoting the previous longest) when strictly longer,
else as new second longest when strictly longer than that, and count it. -/
def updateRank (r : Rank) (word : Word) : Rank :=
  let len := word.length
  if len > r.longest_len then
    { longest := some word, longest_len := len,
      oldlongest := r.longest, oldlongest_len := r.longest_len,
      total := r.total + 1 }
  else if len > r.oldlongest_len then
    { r with oldlongest := some word, oldlongest_len := len, total := r.total + 1 }
  else
    { r with total := r.total + 1 }

/-- One iteration of main's read loop: insert the word into the trie and,
when the insertion produced a non-empty missing list, push a pending
record holding the word and that list. -/
def buildStep (st : Trie × List (Word × List Word)) (w : Word) :
    Trie × List (Word × List Word) :=
  let res := insert st.1 w []
  (res.1, if res.2.isEmpty then st.2 else (w, res.2) :: st.2)

/-- Main's read loop: fold the words through buildStep starting from the
calloc'd root and an empty pending list. -/
def buildTrie (ws : List Word) : Trie × List (Word × List Word) :=
  ws.foldl buildStep (emptyTrie, [])

/-- The inner loop of main's verification pass over one pending record:
walk the missing list with the matched flag, and on the first suffix that
is in the trie (while not yet matched) update the ranking with the
record's word. -/
def processMissing (root : Trie) (word : Word) : List Word → Bool → Rank → Rank
  | [], _, r => r
  | m :: rest, matched, r =>
      if !matched && is_in_trie root (some root) m then
        processMissing root word rest true (updateRank r word)
      else
        processMissing root word rest matched r

/-- The whole program on a list of input words: build the trie and the
pending list, then run the verification pass over the pending records in
order (the list head is the most recently inserted word). -/
def runProgram (ws : List Word) : Rank :=
  let st := buildTrie ws
  st.2.foldl (fun r pr => processMissing st.1 pr.1 pr.2 false r) initRank

/-- A pending record is matched when some suffix in its missing list is
accepted by the matcher against the finished trie. -/
def matchedRec (t : Trie) (pr : Word × List Word) : Bool :=
  pr.2.any fun m => is_in_trie t (some t) m

/-- The words the verification pass confirms as concatenated, in processing
order: the words of the matched pending records. -/
def confirmedWords (ws : List Word) : List Word :=
  let st := buildTrie ws
  (st.2.filter (matchedRec st.1)).map Prod.fst

/-- Specification-side predicate: w splits into one or more non-empty parts,
each an exact member of the dictionary represented by the trie. -/
def MatchesSpec (root : Trie) (w : Word) : Prop :=
  ∃ parts : List Word, parts ≠ [] ∧
    (∀ p ∈ parts, p ≠ [] ∧ trieMem root p = true) ∧ parts.flatten = w

/-! ### Unfolding lemmas for the fuelled matcher -/

lemma iitF_none (root : Trie) (f : Nat) (w : Word) :
    is_in_trieF root (f + 1) none w = false := rfl

lemma iitF_nil (root : Trie) (f : Nat) (n : Trie) :
    is_in_trieF root (f + 1) (some n) [] = n.word_end := rfl

lemma iitF_cons (root : Trie) (f : Nat) (n : Trie) (c : Letter) (cs : Word) :
    is_in_trieF root (f + 1) (some n) (c :: cs) =
      (is_in_trieF root f (n.children c) cs ||
        (n.word_end && is_in_trieF root f (some root) (c :: cs))) := rfl

/-- When the root does not end a word, a restart at the root immediately
consumes the next letter. -/
lemma iitF_root_cons {root : Trie} (hroot : root.word_end = false) (f : Nat)
    (c : Letter) (cs : Word) :
    is_in_trieF root (f + 1) (some root) (c :: cs) =
      is_in_trieF root f (root.children c) cs := by
  rw [iitF_cons, hroot]
  simp

/-- The matcher's answer does not depend on the fuel once the budget reaches
2*len+1, provided the root does not end a word. -/
lemma iitF_fuel_congr {root : Trie} (hroot : root.word_end = false) :
    ∀ (w : Word) (f g : Nat) (node : Option Trie),
      2 * w.length + 1 ≤ f → 2 * w.length + 1 ≤ g →
      is_in_trieF root f node w = is_in_trieF root g node w := by
  intro w
  induction w with
  | nil =>
    intro f g node hf hg
    obtain ⟨f, rfl⟩ : ∃ k, f = k + 1 := ⟨f - 1, by omega⟩
    obtain ⟨g, rfl⟩ : ∃ k, g = k + 1 := ⟨g - 1, by omega⟩
    cases node <;> rfl
  | cons c cs ih =>
    intro f g node hf hg
    simp only [List.length_cons] at hf hg
    obtain ⟨f, rfl⟩ : ∃ k, f = k + 1 := ⟨f - 1, by omega⟩
    obtain ⟨g, rfl⟩ : ∃ k, g = k + 1 := ⟨g - 1, by omega⟩
    cases node with
    | none => rfl
    | some n =>
      rw [iitF_cons, iitF_cons]
      have h1 : is_in_trieF root f (n.children c) cs = is_in_trieF root g (n.children c) cs :=
        ih f g _ (by omega) (by omega)
      obtain ⟨f, rfl⟩ : ∃ k, f = k + 1 := ⟨f - 1, by omega⟩
      obtain ⟨g, rfl⟩ : ∃ k, g = k + 1 := ⟨g - 1, by omega⟩
      rw [iitF_root_cons hroot, iitF_root_cons hroot, h1,
        ih f g (root.children c) (by omega) (by omega)]

lemma is_in_trie_nil (root : Trie) (n : Trie) :
    is_in_trie root (some n) [] = n.word_end := rfl

lemma is_in_trie_none (root : Trie) (w : Word) :
    is_in_trie root none w = false := rfl

/-- Unfolding of the full-budget matcher on a non-empty word, with the
restart at the root already pushed one step (the root does not end a word, so
a restart immediately descends to the root's child). -/
lemma is_in_trie_cons {root : Trie} (hroot : root.word_end = false) (n : Trie)
    (c : Letter) (cs : Word) :
    is_in_trie root (some n) (c :: cs) =
      (is_in_trie root (n.children c) cs ||
        (n.word_end && is_in_trie root (root.children c) cs)) := by
  show is_in_trieF root (2 * (c :: cs).length + 1) (some n) (c :: cs) = _
  have hlen : 2 * (c :: cs).length + 1 = ((2 * cs.length + 1) + 1) + 1 := by
    simp only [List.length_cons]
    omega
  rw [hlen, iitF_cons, iitF_root_cons hroot]
  rw [iitF_fuel_congr hroot cs ((2 * cs.length + 1) + 1) (2 * cs.length + 1)
    (n.children c) (by omega) (by omega)]
  rfl

lemma is_in_trie_root_cons {root : Trie} (hroot : root.word_end = false)
    (c : Letter) (cs : Word) :
    is_in_trie root (some root) (c :: cs) = is_in_trie root (root.children c) cs := by
  rw [is_in_trie_cons hroot, hroot]
  simp

/-! ### Basic lemmas about trie membership -/

lemma trieMem_nil (t : Trie) : trieMem t [] = t.word_end := rfl

lemma trieMem_cons_some {t u : Trie} {c : Letter} (h : t.children c = some u)
    (cs : Word) : trieMem t (c :: cs) = trieMem u cs := by
  simp [trieMem, trieFind, h]

lemma trieMem_cons_none {t : Trie} {c : Letter} (h : t.children c = none)
    (cs : Word) : trieMem t (c :: cs) = false := by
  simp [trieMem, trieFind, h]

lemma trieMem_empty (w : Word) : trieMem emptyTrie w = false := by
  cases w <;> rfl

/-! ### Soundness and completeness of the matcher -/

/-- Soundness: a successful run from a node splits the text into a
completion u of some word ending inside the node's subtree followed by a
remainder that is empty or fully segmentable from the root. -/
lemma is_in_trie_sound {root : Trie} (hroot : root.word_end = false) :
    ∀ (w : Word) (n : Trie), is_in_trie root (some n) w = true →
      ∃ u v, w = u ++ v ∧ trieMem n u = true ∧ (v = [] ∨ MatchesSpec root v) := by
  intro w
  induction w with
  | nil =>
    intro n h
    rw [is_in_trie_nil] at h
    exact ⟨[], [], rfl, by rw [trieMem_nil]; exact h, Or.inl rfl⟩
  | cons c cs ih =>
    intro n h
    rw [is_in_trie_cons hroot, Bool.or_eq_true] at h
    rcases h with h | h
    · cases hc : n.children c with
      | none =>
        rw [hc, is_in_trie_none] at h
        exact absurd h (by simp)
      | some child =>
        rw [hc] at h
        obtain ⟨u, v, hsplit, hu, hv⟩ := ih child h
        exact ⟨c :: u, v, by rw [hsplit]; rfl, by rw [trieMem_cons_some hc]; exact hu, hv⟩
    · rw [Bool.and_eq_true] at h
      obtain ⟨hwe, hrest⟩ := h
      cases hc : root.children c with
      | none =>
        rw [hc, is_in_trie_none] at hrest
        exact absurd hrest (by simp)
      | some rchild =>
        rw [hc] at hrest
        obtain ⟨u, v, hsplit, hu, hv⟩ := ih rchild hrest
        have hms : MatchesSpec root (c :: cs) := by
          rcases hv with rfl | ⟨parts, hpne, hall, hjoin⟩
          · refine ⟨[c :: u], by simp, ?_, by simp [hsplit]⟩
            intro p hp
            simp only [List.mem_singleton] at hp
            subst hp
            exact ⟨by simp, by rw [trieMem_cons_some hc]; exact hu⟩
          · refine ⟨(c :: u) :: parts, by simp, ?_, by simp [hjoin, hsplit]⟩
            intro p hp
            rcases List.mem_cons.mp hp with rfl | hp
            · exact ⟨by simp, by rw [trieMem_cons_some hc]; exact hu⟩
            · exact hall p hp
        exact ⟨[], c :: cs, rfl, by rw [trieMem_nil]; exact hwe, Or.inr hms⟩

/-- Completeness: if a non-empty prefix u of the text is a word below the
current node and the remainder is empty or fully segmentable from the root,
the matcher accepts the text from the node. -/
lemma is_in_trie_complete {root : Trie} (hroot : root.word_end = false) :
    ∀ (N : Nat) (w : Word), w.length ≤ N → ∀ (n : Trie) (u v : Word),
      w = u ++ v → u ≠ [] → trieMem n u = true →
      (v = [] ∨ MatchesSpec root v) → is_in_trie root (some n) w = true := by
  intro N
  induction N with
  | zero =>
    intro w hw n u v hsplit hune _ _
    subst hsplit
    cases u with
    | nil => exact absurd rfl hune
    | cons c u' => simp at hw
  | succ N ih =>
    intro w hw n u v hsplit hune hmem hv
    cases u with
    | nil => exact absurd rfl hune
    | cons c u' =>
      subst hsplit
      cases hc : n.children c with
      | none =>
        rw [trieMem_cons_none hc] at hmem
        exact absurd hmem (by simp)
      | some child =>
        rw [trieMem_cons_some hc] at hmem
        rw [show ((c :: u') ++ v) = c :: (u' ++ v) from rfl, is_in_trie_cons hroot, hc,
          Bool.or_eq_true]
        refine Or.inl ?_
        cases u' with
        | cons d u'' =>
          refine ih ((d :: u'') ++ v) ?_ child (d :: u'') v rfl
            (by simp) hmem hv
          simp only [List.length_cons, List.length_append] at hw ⊢
          omega
        | nil =>
          simp only [List.nil_append]
          rw [trieMem_nil] at hmem
          rcases hv with rfl | hms
          · rw [is_in_trie_nil]
            exact hmem
          · obtain ⟨parts, hpne, hall, hjoin⟩ := hms
            cases parts with
            | nil => exact absurd rfl hpne
            | cons q qs =>
              have hq := hall q (by simp)
              have hvsplit : v = q ++ qs.flatten := by
                rw [← hjoin, List.flatten_cons]
              have hroot_match : is_in_trie root (some root) v = true := by
                refine ih v ?_ root q qs.flatten hvsplit hq.1 hq.2 ?_
                · simp only [List.length_cons, List.nil_append, List.length_append] at hw ⊢
                  omega
                · cases qs with
                  | nil => exact Or.inl rfl
                  | cons q2 qs2 =>
                    exact Or.inr ⟨q2 :: qs2, by simp,
                      fun p hp => hall p (List.mem_cons_of_mem q hp), rfl⟩
              cases v with
              | nil =>
                rw [is_in_trie_nil, hroot] at hroot_match
                exact absurd hroot_match (by simp)
              | cons d vs =>
                rw [is_in_trie_root_cons hroot] at hroot_match
                rw [is_in_trie_cons hroot, Bool.or_eq_true]
                exact Or.inr (by rw [hmem, hroot_match]; rfl)

/-- The central correctness statement for the matcher: from the root, a
match is exactly a partition into one or more non-empty dictionary words. -/
lemma is_in_trie_iff_matches {root : Trie} (hroot : root.word_end = false) (w : Word) :
    is_in_trie root (some root) w = true ↔ MatchesSpec root w := by
  constructor
  · intro h
    obtain ⟨u, v, rfl, hu, hv⟩ := is_in_trie_sound hroot w root h
    have hune : u ≠ [] := by
      rintro rfl
      rw [trieMem_nil, hroot] at hu
      exact absurd hu (by simp)
    rcases hv with rfl | ⟨parts, hpne, hall, hjoin⟩
    · refine ⟨[u], by simp, ?_, by simp⟩
      intro p hp
      simp only [List.mem_singleton] at hp
      subst hp
      exact ⟨hune, hu⟩
    · refine ⟨u :: parts, by simp, ?_, by simp [hjoin]⟩
      intro p hp
      rcases List.mem_cons.mp hp with rfl | hp
      · exact ⟨hune, hu⟩
      · exact hall p hp
  · rintro ⟨parts, hpne, hall, rfl⟩
    cases parts with
    | nil => exact absurd rfl hpne
    | cons q qs =>
      have hq := hall q (by simp)
      refine is_in_trie_complete hroot (q :: qs).flatten.length _ le_rfl root q
        qs.flatten (by simp) hq.1 hq.2 ?_
      cases qs with
      | nil => exact Or.inl rfl
      | cons q2 qs2 =>
        exact Or.inr ⟨q2 :: qs2, by simp, fun p hp => hall p (List.mem_cons_of_mem q hp), rfl⟩

/-! ### Lemmas about insertion -/

lemma word_end_mk (b : Bool) (f : Letter → Option Trie) : (Trie.mk b f).word_end = b := rfl

lemma children_mk (b : Bool) (f : Letter → Option Trie) : (Trie.mk b f).children = f := rfl

lemma setChild_self (f : Letter → Option Trie) (c : Letter) (t : Trie) :
    setChild f c t c = some t := by
  simp [setChild]

lemma setChild_other (f : Letter → Option Trie) {c d : Letter} (t : Trie) (h : d ≠ c) :
    setChild f c t d = f d := by
  simp [setChild, h]

lemma insert_nil (t : Trie) (acc : List Word) :
    insert t [] acc = (.mk true t.children, acc) := rfl

lemma insert_cons (t : Trie) (c : Letter) (rest : Word) (acc : List Word) :
    insert t (c :: rest) acc =
      (Trie.mk t.word_end (setChild t.children c
          (insert ((t.children c).getD emptyTrie) rest
            (if t.word_end then (c :: rest) :: acc else acc)).1),
        (insert ((t.children c).getD emptyTrie) rest
          (if t.word_end then (c :: rest) :: acc else acc)).2) := rfl

/-- The resulting trie does not depend on the missing accumulator. -/
lemma insert_fst_acc : ∀ (w : Word) (t : Trie) (acc acc' : List Word),
    (insert t w acc).1 = (insert t w acc').1 := by
  intro w
  induction w with
  | nil => intro t acc acc'; rfl
  | cons c rest ih =>
    intro t acc acc'
    rw [insert_cons, insert_cons]
    have := ih ((t.children c).getD emptyTrie)
      (if t.word_end then (c :: rest) :: acc else acc)
      (if t.word_end then (c :: rest) :: acc' else acc')
    rw [this]

/-- The trie produced by one insertion into t, with an empty accumulator. -/
def insertWord (t : Trie) (w : Word) : Trie := (insert t w []).1

/-- Inserting a non-empty word never changes the root's word_end flag. -/
lemma insert_word_end (t : Trie) (c : Letter) (rest : Word) (acc : List Word) :
    (insert t (c :: rest) acc).1.word_end = t.word_end := by
  rw [insert_cons, word_end_mk]

/-- Membership after an insertion: exactly the inserted word is added. -/
lemma trieMem_insert : ∀ (w : Word) (t : Trie) (v : Word) (acc : List Word),
    (trieMem (insert t w acc).1 v = true ↔ v = w ∨ trieMem t v = true) := by
  intro w
  induction w with
  | nil =>
    intro t v acc
    rw [insert_nil]
    cases v with
    | nil => simp [trieMem_nil, word_end_mk]
    | cons d vs =>
      cases hd : (Trie.mk true t.children).children d with
      | none =>
        rw [trieMem_cons_none hd]
        rw [children_mk] at hd
        rw [trieMem_cons_none hd]
        simp
      | some u =>
        rw [trieMem_cons_some hd]
        rw [children_mk] at hd
        rw [trieMem_cons_some hd]
        simp
  | cons c rest ih =>
    intro t v acc
    rw [insert_cons]
    cases v with
    | nil =>
      rw [trieMem_nil, word_end_mk, trieMem_nil]
      simp
    | cons d vs =>
      by_cases hdc : d = c
      · subst hdc
        have hd : (Trie.mk t.word_end (setChild t.children d
            (insert ((t.children d).getD emptyTrie) rest
              (if t.word_end then (d :: rest) :: acc else acc)).1)).children d =
            some (insert ((t.children d).getD emptyTrie) rest
              (if t.word_end then (d :: rest) :: acc else acc)).1 := by
          rw [children_mk, setChild_self]
        rw [trieMem_cons_some hd, ih]
        cases hc : t.children d with
        | none =>
          rw [trieMem_cons_none hc]
          simp only [hc, Option.getD_none]
          rw [show trieMem emptyTrie vs = false from trieMem_empty vs]
          simp
        | some u =>
          rw [trieMem_cons_some hc]
          simp only [hc, Option.getD_some]
          simp
      · have hd : (Trie.mk t.word_end (setChild t.children c
            (insert ((t.children c).getD emptyTrie) rest
              (if t.word_end then (c :: rest) :: acc else acc)).1)).children d =
            t.children d := by
          rw [children_mk, setChild_other _ _ hdc]
        have hne : (d :: vs) ≠ (c :: rest) := by
          intro h
          exact hdc (List.head_eq_of_cons_eq h)
        cases hc : t.children d with
        | none =>
          rw [hc] at hd
          rw [trieMem_cons_none hd, trieMem_cons_none hc]
          simp [hne]
        | some u =>
          rw [hc] at hd
          rw [trieMem_cons_some hd, trieMem_cons_some hc]
          simp [hne]

/-- Every entry of the missing list produced by an insertion either was in
the accumulator already, or is the non-empty tail of the inserted word cut
at a point where a word of the pre-insertion trie ends. -/
lemma insert_snd_mem : ∀ (w : Word) (t : Trie) (acc : List Word) (m : Word),
    m ∈ (insert t w acc).2 →
    m ∈ acc ∨ ∃ p, w = p ++ m ∧ m ≠ [] ∧ trieMem t p = true := by
  intro w
  induction w with
  | nil =>
    intro t acc m hm
    rw [insert_nil] at hm
    exact Or.inl hm
  | cons c rest ih =>
    intro t acc m hm
    rw [insert_cons] at hm
    rcases ih _ _ m hm with hm1 | ⟨p, hsplit, hmne, hmem⟩
    · cases hwe : t.word_end with
      | false =>
        rw [hwe] at hm1
        simp only [Bool.false_eq_true, if_false] at hm1
        exact Or.inl hm1
      | true =>
        rw [hwe] at hm1
        simp only [if_true] at hm1
        rcases List.mem_cons.mp hm1 with rfl | hm2
        · exact Or.inr ⟨[], rfl, by simp, by rw [trieMem_nil]; exact hwe⟩
        · exact Or.inl hm2
    · refine Or.inr ⟨c :: p, by rw [hsplit]; rfl, hmne, ?_⟩
      cases hc : t.children c with
      | none =>
        rw [hc] at hmem
        simp only [Option.getD_none] at hmem
        rw [trieMem_empty] at hmem
        exact absurd hmem (by simp)
      | some u =>
        rw [hc] at hmem
        simp only [Option.getD_some] at hmem
        rw [trieMem_cons_some hc]
        exact hmem

/-! ### Lemmas about the build fold -/

/-- The trie component of the read loop is the plain fold of insertions. -/
lemma buildTrie_fst_eq : ∀ (ws : List Word) (t : Trie) (pend : List (Word × List Word)),
    (ws.foldl buildStep (t, pend)).1 = ws.foldl insertWord t := by
  intro ws
  induction ws with
  | nil => intro t pend; rfl
  | cons w rest ih =>
    intro t pend
    rw [List.foldl_cons, List.foldl_cons]
    exact ih _ _

/-- Membership in the folded trie is membership in the word list. -/
lemma trieMem_foldl : ∀ (ws : List Word) (t : Trie) (v : Word),
    (trieMem (ws.foldl insertWord t) v = true ↔ v ∈ ws ∨ trieMem t v = true) := by
  intro ws
  induction ws with
  | nil =>
    intro t v
    simp
  | cons w rest ih =>
    intro t v
    rw [List.foldl_cons, ih]
    unfold insertWord
    rw [trieMem_insert]
    constructor
    · rintro (h | h | h)
      · exact Or.inl (List.mem_cons_of_mem w h)
      · exact Or.inl (h ▸ List.mem_cons_self w rest)
      · exact Or.inr h
    · rintro (h | h)
      · rcases List.mem_cons.mp h with rfl | h
        · exact Or.inr (Or.inl rfl)
        · exact Or.inl h
      · exact Or.inr (Or.inr h)

/-- The root's word_end flag stays clear while inserting non-empty words. -/
lemma foldl_word_end : ∀ (ws : List Word) (t : Trie), (∀ w ∈ ws, w ≠ []) →
    t.word_end = false → (ws.foldl insertWord t).word_end = false := by
  intro ws
  induction ws with
  | nil => intro t _ h; exact h
  | cons w rest ih =>
    intro t hws ht
    rw [List.foldl_cons]
    refine ih _ (fun x hx => hws x (List.mem_cons_of_mem w hx)) ?_
    cases hw : w with
    | nil => exact absurd hw (hws w (List.mem_cons_self w rest))
    | cons c cs => exact (insert_word_end t c cs []).trans ht

/-- Every pending record of the finished build pairs an input word with
suffixes m that split the word as p ++ m, where p is a non-empty word of the
finished trie. -/
lemma build_pending_inv : ∀ (ws : List Word) (t : Trie) (pend : List (Word × List Word)),
    t.word_end = false → (∀ w ∈ ws, w ≠ []) →
    ∀ pr ∈ (ws.foldl buildStep (t, pend)).2,
      pr ∈ pend ∨
      (pr.1 ∈ ws ∧ ∀ m ∈ pr.2, ∃ p, pr.1 = p ++ m ∧ m ≠ [] ∧ p ≠ [] ∧
        trieMem (ws.foldl insertWord t) p = true) := by
  intro ws
  induction ws with
  | nil =>
    intro t pend _ _ pr hpr
    exact Or.inl hpr
  | cons w rest ih =>
    intro t pend ht hws pr hpr
    rw [List.foldl_cons] at hpr
    have hb : buildStep (t, pend) w = (insertWord t w,
        if (insert t w []).2.isEmpty then pend else (w, (insert t w []).2) :: pend) := rfl
    rw [hb] at hpr
    have hwne : w ≠ [] := hws w (List.mem_cons_self w rest)
    have ht' : (insertWord t w).word_end = false := by
      cases hw : w with
      | nil => exact absurd hw hwne
      | cons c cs => exact (insert_word_end t c cs []).trans ht
    have hrest : ∀ x ∈ rest, x ≠ [] := fun x hx => hws x (List.mem_cons_of_mem w hx)
    rw [List.foldl_cons]
    rcases ih (insertWord t w) _ ht' hrest pr hpr with hp | ⟨hmem, hsuf⟩
    · cases he : (insert t w []).2.isEmpty with
      | true =>
        rw [he] at hp
        simp only [if_true] at hp
        exact Or.inl hp
      | false =>
        rw [he] at hp
        simp only [Bool.false_eq_true, if_false] at hp
        rcases List.mem_cons.mp hp with rfl | hp2
        · refine Or.inr ⟨List.mem_cons_self w rest, ?_⟩
          intro m hm
          rcases insert_snd_mem w t [] m hm with habs | ⟨p, hsplit, hmne, hpmem⟩
          · exact absurd habs (List.not_mem_nil m)
          · refine ⟨p, hsplit, hmne, ?_, ?_⟩
            · rintro rfl
              rw [trieMem_nil, ht] at hpmem
              exact absurd hpmem (by simp)
            · refine (trieMem_foldl rest (insertWord t w) p).mpr (Or.inr ?_)
              exact (trieMem_insert w t p []).mpr (Or.inr hpmem)
        · exact Or.inl hp2
    · exact Or.inr ⟨List.mem_cons_of_mem w hmem, hsuf⟩

/-- Pending records of the whole program: each pairs an input word with
suffixes that cut it after a non-empty dictionary word. -/
lemma buildTrie_pending {ws : List Word} (hws : ∀ w ∈ ws, w ≠ []) :
    ∀ pr ∈ (buildTrie ws).2, pr.1 ∈ ws ∧ ∀ m ∈ pr.2, ∃ p, pr.1 = p ++ m ∧
      m ≠ [] ∧ p ≠ [] ∧ trieMem (buildTrie ws).1 p = true := by
  intro pr hpr
  have h0 : emptyTrie.word_end = false := rfl
  rcases build_pending_inv ws emptyTrie [] h0 hws pr hpr with habs | ⟨h1, h2⟩
  · exact absurd habs (List.not_mem_nil pr)
  · refine ⟨h1, ?_⟩
    intro m hm
    obtain ⟨p, hs, hmne, hpne, hmem⟩ := h2 m hm
    have hfst : (buildTrie ws).1 = ws.foldl insertWord emptyTrie := buildTrie_fst_eq ws emptyTrie []
    exact ⟨p, hs, hmne, hpne, by rw [hfst]; exact hmem⟩

/-- The root of the finished trie never terminates a word when all inserted
words are non-empty. -/
lemma buildTrie_word_end {ws : List Word} (hws : ∀ w ∈ ws, w ≠ []) :
    (buildTrie ws).1.word_end = false := by
  have hfst : (buildTrie ws).1 = ws.foldl insertWord emptyTrie := buildTrie_fst_eq ws emptyTrie []
  rw [hfst]
  exact foldl_word_end ws emptyTrie hws rfl

/-! ### Lemmas about the verification pass -/

/-- Once the matched flag is set, the rest of the missing list is skipped. -/
lemma processMissing_matched (root : Trie) (word : Word) :
    ∀ (ms : List Word) (r : Rank), processMissing root word ms true r = r := by
  intro ms
  induction ms with
  | nil => intro r; rfl
  | cons m rest ih =>
    intro r
    show (if !true && is_in_trie root (some root) m then
        processMissing root word rest true (updateRank r word)
      else processMissing root word rest true r) = r
    simp only [Bool.not_true, Bool.false_and, Bool.false_eq_true, if_false]
    exact ih r

/-- One pending record updates the ranking exactly once, iff some suffix of
its missing list is matched. -/
lemma processMissing_eq (root : Trie) (word : Word) :
    ∀ (ms : List Word) (r : Rank),
      processMissing root word ms false r =
        if ms.any (fun m => is_in_trie root (some root) m) then updateRank r word else r := by
  intro ms
  induction ms with
  | nil => intro r; rfl
  | cons m rest ih =>
    intro r
    show (if !false && is_in_trie root (some root) m then
        processMissing root word rest true (updateRank r word)
      else processMissing root word rest false r) = _
    simp only [Bool.not_false, Bool.true_and, List.any_cons]
    by_cases hm : is_in_trie root (some root) m = true
    · rw [if_pos hm, processMissing_matched root word rest (updateRank r word)]
      simp [hm]
    · have hm' : is_in_trie root (some root) m = false := by
        revert hm
        cases is_in_trie root (some root) m <;> simp
      rw [if_neg hm, ih r]
      simp [hm']

/-- The verification fold, record by record. -/
lemma verify_foldl_eq (t : Trie) :
    ∀ (prs : List (Word × List Word)) (r : Rank),
      prs.foldl (fun r pr => processMissing t pr.1 pr.2 false r) r =
        prs.foldl (fun r pr => if matchedRec t pr then updateRank r pr.1 else r) r := by
  intro prs
  induction prs with
  | nil => intro r; rfl
  | cons pr rest ih =>
    intro r
    rw [List.foldl_cons, List.foldl_cons, processMissing_eq, ih]
    rfl

/-- updateRank always counts the word. -/
lemma updateRank_total (r : Rank) (word : Word) :
    (updateRank r word).total = r.total + 1 := by
  unfold updateRank
  dsimp only
  split
  · rfl
  · split <;> rfl

/-- The verification fold counts exactly the matched records. -/
lemma verify_total (t : Trie) :
    ∀ (prs : List (Word × List Word)) (r : Rank),
      (prs.foldl (fun r pr => if matchedRec t pr then updateRank r pr.1 else r) r).total =
        r.total + (prs.filter (matchedRec t)).length := by
  intro prs
  induction prs with
  | nil => intro r; rfl
  | cons pr rest ih =>
    intro r
    rw [List.foldl_cons, ih]
    cases hm : matchedRec t pr with
    | true =>
      rw [if_pos rfl, updateRank_total, List.filter_cons_of_pos hm, List.length_cons]
      omega
    | false =>
      rw [if_neg (by simp), List.filter_cons_of_neg (by simp [hm])]

/-- The reported total is the number of confirmed words. -/
lemma runProgram_total (ws : List Word) :
    (runProgram ws).total = (confirmedWords ws).length := by
  unfold runProgram confirmedWords
  rw [verify_foldl_eq, verify_total]
  simp [initRank]

/-- Membership in the confirmed list: a matched pending record's word. -/
lemma mem_confirmedWords {ws : List Word} {w : Word} :
    w ∈ confirmedWords ws ↔ ∃ pr ∈ (buildTrie ws).2, matchedRec (buildTrie ws).1 pr = true ∧
      pr.1 = w := by
  unfold confirmedWords
  constructor
  · intro h
    obtain ⟨pr, hpr, hw⟩ := List.mem_map.mp h
    obtain ⟨hmem, hmat⟩ := List.mem_filter.mp hpr
    exact ⟨pr, hmem, hmat, hw⟩
  · rintro ⟨pr, hmem, hmat, rfl⟩
    exact List.mem_map.mpr ⟨pr, List.mem_filter.mpr ⟨hmem, hmat⟩, rfl⟩

/-! ### Case equations for the ranking update -/

lemma updateRank_gt {r : Rank} {word : Word} (h : word.length > r.longest_len) :
    updateRank r word = ⟨some word, word.length, r.longest, r.longest_len, r.total + 1⟩ := by
  unfold updateRank
  dsimp only
  rw [if_pos h]

lemma updateRank_mid {r : Rank} {word : Word} (h1 : ¬word.length > r.longest_len)
    (h2 : word.length > r.oldlongest_len) :
    updateRank r word =
      { r with oldlongest := some word, oldlongest_len := word.length, total := r.total + 1 } := by
  unfold updateRank
  dsimp only
  rw [if_neg h1, if_pos h2]

lemma updateRank_le {r : Rank} {word : Word} (h1 : ¬word.length > r.longest_len)
    (h2 : ¬word.length > r.oldlongest_len) :
    updateRank r word = { r with total := r.total + 1 } := by
  unfold updateRank
  dsimp only
  rw [if_neg h1, if_neg h2]

/-! ### An invariant of the ranking state -/

/-- Invariant maintained by the verification pass: a slot is occupied exactly
when its recorded length is positive, one confirmation fills the longest
slot, and a second confirmation fills the second-longest slot. -/
def GoodRank (r : Rank) : Prop :=
  (r.longest.isSome = true ↔ 1 ≤ r.longest_len) ∧
  (r.oldlongest.isSome = true ↔ 1 ≤ r.oldlongest_len) ∧
  (1 ≤ r.total → 1 ≤ r.longest_len) ∧
  (2 ≤ r.total → 1 ≤ r.oldlongest_len)

lemma goodRank_init : GoodRank initRank := by
  refine ⟨by simp [initRank], by simp [initRank], ?_, ?_⟩ <;> simp [initRank]

lemma goodRank_update {r : Rank} {word : Word} (h : GoodRank r) (hw : word ≠ []) :
    GoodRank (updateRank r word) := by
  obtain ⟨h1, h2, h3, h4⟩ := h
  have hlen : 1 ≤ word.length := by
    cases word with
    | nil => exact absurd rfl hw
    | cons c cs => simp
  unfold GoodRank
  by_cases hA : word.length > r.longest_len
  · rw [updateRank_gt hA]
    dsimp only
    exact ⟨by simpa using hlen, h1, fun _ => hlen, fun _ => h3 (by omega)⟩
  · by_cases hB : word.length > r.oldlongest_len
    · rw [updateRank_mid hA hB]
      dsimp only
      exact ⟨h1, by simpa using hlen, fun _ => by omega, fun _ => hlen⟩
    · rw [updateRank_le hA hB]
      dsimp only
      exact ⟨h1, h2, fun _ => by omega, fun _ => by omega⟩

lemma verify_good (t : Trie) :
    ∀ (prs : List (Word × List Word)) (r : Rank), (∀ pr ∈ prs, pr.1 ≠ []) → GoodRank r →
      GoodRank (prs.foldl (fun r pr => if matchedRec t pr then updateRank r pr.1 else r) r) := by
  intro prs
  induction prs with
  | nil => intro r _ h; exact h
  | cons pr rest ih =>
    intro r hne h
    rw [List.foldl_cons]
    refine ih _ (fun x hx => hne x (List.mem_cons_of_mem pr hx)) ?_
    by_cases hm : matchedRec t pr = true
    · rw [if_pos hm]
      exact goodRank_update h (hne pr (List.mem_cons_self pr rest))
    · rw [if_neg hm]
      exact h

/-- The final ranking state of the program satisfies the invariant. -/
lemma runProgram_good {ws : List Word} (hws : ∀ w ∈ ws, w ≠ []) :
    GoodRank (runProgram ws) := by
  unfold runProgram
  rw [verify_foldl_eq]
  refine verify_good _ _ _ ?_ goodRank_init
  intro pr hpr
  have := (buildTrie_pending hws pr hpr).1
  exact hws pr.1 this

/-- Whenever at least two concatenated words are counted, the second-longest
slot is occupied. -/
lemma total_two_oldlongest_isSome {ws : List Word} (hws : ∀ w ∈ ws, w ≠ [])
    (h2 : 2 ≤ (runProgram ws).total) : (runProgram ws).oldlongest.isSome = true := by
  obtain ⟨g1, g2, g3, g4⟩ := runProgram_good hws
  exact g2.mpr (g4 h2)

/-! ### Commutativity of insertions -/

lemma insertWord_nil (t : Trie) : insertWord t [] = Trie.mk true t.children := rfl

lemma insertWord_cons (t : Trie) (c : Letter) (rest : Word) :
    insertWord t (c :: rest) =
      Trie.mk t.word_end (setChild t.children c
        (insertWord ((t.children c).getD emptyTrie) rest)) := by
  unfold insertWord
  rw [insert_cons]
  rw [insert_fst_acc rest ((t.children c).getD emptyTrie)
    (if t.word_end then (c :: rest) :: [] else []) []]

lemma setChild_same_slot (f : Letter → Option Trie) (c : Letter) (t t' : Trie) :
    setChild (setChild f c t) c t' = setChild f c t' := by
  funext j
  by_cases hj : j = c <;> simp [setChild, hj]

lemma setChild_comm_slot (f : Letter → Option Trie) {c d : Letter} (h : c ≠ d)
    (t1 t2 : Trie) :
    setChild (setChild f c t1) d t2 = setChild (setChild f d t2) c t1 := by
  funext j
  by_cases hjd : j = d
  · subst hjd
    simp [setChild, h, Ne.symm h]
  · by_cases hjc : j = c <;> simp [setChild, hjd, hjc, h]

/-- Two insertions into the same trie commute. -/
lemma insertWord_comm : ∀ (a : Word) (b : Word) (t : Trie),
    insertWord (insertWord t a) b = insertWord (insertWord t b) a := by
  intro a
  induction a with
  | nil =>
    intro b t
    cases b with
    | nil => rfl
    | cons d bs =>
      rw [insertWord_nil, insertWord_cons, insertWord_cons, insertWord_nil,
        word_end_mk, children_mk, children_mk]
  | cons c as ih =>
    intro b t
    cases b with
    | nil =>
      rw [insertWord_nil, insertWord_cons, insertWord_cons, insertWord_nil,
        word_end_mk, children_mk, children_mk]
    | cons d bs =>
      by_cases hcd : c = d
      · subst hcd
        rw [insertWord_cons, insertWord_cons, insertWord_cons, insertWord_cons,
          word_end_mk, word_end_mk, children_mk, children_mk,
          setChild_self, setChild_self]
        simp only [Option.getD_some]
        rw [setChild_same_slot, setChild_same_slot, ih]
      · rw [insertWord_cons, insertWord_cons, insertWord_cons, insertWord_cons,
          word_end_mk, word_end_mk, children_mk, children_mk,
          setChild_other _ _ (Ne.symm hcd), setChild_other _ _ hcd,
          setChild_comm_slot _ hcd]

/-- Inserting a list of words in any order yields the same trie. -/
lemma foldl_insertWord_perm {l1 l2 : List Word} (h : l1.Perm l2) :
    ∀ t : Trie, l1.foldl insertWord t = l2.foldl insertWord t := by
  induction h with
  | nil => intro t; rfl
  | cons x _ ih =>
    intro t
    rw [List.foldl_cons, List.foldl_cons, ih]
  | swap x y l =>
    intro t
    rw [List.foldl_cons, List.foldl_cons, List.foldl_cons, List.foldl_cons,
      insertWord_comm]
  | trans _ _ ih1 ih2 =>
    intro t
    rw [ih1, ih2]

/-- Membership in the finished trie is membership in the input list. -/
lemma trieMem_buildTrie {ws : List Word} {v : Word} :
    trieMem (buildTrie ws).1 v = true ↔ v ∈ ws := by
  have hfst : (buildTrie ws).1 = ws.foldl insertWord emptyTrie := buildTrie_fst_eq ws emptyTrie []
  rw [hfst, trieMem_foldl]
  simp [trieMem_empty]

/-- Inserting into a fresh trie meets no word_end node, so it produces no
missing suffixes. -/
lemma insert_empty_snd : ∀ (w : Word) (acc : List Word),
    (insert emptyTrie w acc).2 = acc := by
  intro w
  induction w with
  | nil => intro acc; rfl
  | cons c rest ih =>
    intro acc
    rw [insert_cons]
    show (insert ((emptyTrie.children c).getD emptyTrie) rest
      (if emptyTrie.word_end then (c :: rest) :: acc else acc)).2 = acc
    have h1 : (emptyTrie.children c).getD emptyTrie = emptyTrie := rfl
    have h2 : (if emptyTrie.word_end then (c :: rest) :: acc else acc) = acc := rfl
    rw [h1, h2, ih]

/-! ### The claims -/

/-- C1: for every finished trie, built from a list of non-empty input words,
and every non-empty text, the matcher is_in_trie from the root returns true
iff the text can be partitioned into a sequence of one or more non-empty
substrings, each an exact member of the dictionary represented by the trie;
in particular, with zero remaining characters the match succeeds iff the
current node has word_end set. -/
theorem c1_matcher_correct (ws : List Word) (hws : ∀ w ∈ ws, w ≠ [])
    (text : Word) (htext : text ≠ []) :
    (is_in_trie (buildTrie ws).1 (some (buildTrie ws).1) text = true ↔
      MatchesSpec (buildTrie ws).1 text) ∧
    ∀ node : Trie, is_in_trie (buildTrie ws).1 (some node) [] = node.word_end :=
  ⟨is_in_trie_iff_matches (buildTrie_word_end hws) text, fun _ => rfl⟩

/-- Witness for C1: with dictionary a, the text aa is matched and indeed
splits into dictionary words. -/
theorem c1_matcher_correct_witness :
    MatchesSpec (buildTrie [[0]]).1 [0, 0] :=
  (c1_matcher_correct [[0]] (by decide) [0, 0] (by decide)).1.mp (by decide)

/-- C2: the reported total counts exactly the confirmed words; every word
the program confirms as concatenated splits into at least two non-empty
parts, each an exact member of the input dictionary; and a word built from
repeated copies of a strictly shorter dictionary word does qualify (aa is
confirmed from the dictionary a, aa). -/
theorem c2_confirmed_has_partition (ws : List Word) (hws : ∀ w ∈ ws, w ≠ [])
    (w : Word) (hw : w ∈ confirmedWords ws) :
    (∃ parts : List Word, 2 ≤ parts.length ∧ parts.flatten = w ∧
      ∀ p ∈ parts, p ≠ [] ∧ p ∈ ws) ∧
    (runProgram ws).total = (confirmedWords ws).length ∧
    [0, 0] ∈ confirmedWords [[0], [0, 0]] := by
  refine ⟨?_, runProgram_total ws, by decide⟩
  obtain ⟨pr, hpr, hmat, rfl⟩ := mem_confirmedWords.mp hw
  obtain ⟨hprws, hsuf⟩ := buildTrie_pending hws pr hpr
  obtain ⟨m, hm, hmatch⟩ := List.any_eq_true.mp hmat
  obtain ⟨p, hsplit, hmne, hpne, hpmem⟩ := hsuf m hm
  have hroot : (buildTrie ws).1.word_end = false := buildTrie_word_end hws
  obtain ⟨parts, hpne2, hall, hjoin⟩ :=
    (is_in_trie_iff_matches hroot m).mp hmatch
  refine ⟨p :: parts, ?_, ?_, ?_⟩
  · cases parts with
    | nil => exact absurd rfl hpne2
    | cons q qs => simp
  · rw [List.flatten_cons, hjoin, hsplit]
  · intro q hq
    rcases List.mem_cons.mp hq with rfl | hq
    · exact ⟨hpne, trieMem_buildTrie.mp hpmem⟩
    · obtain ⟨hqne, hqmem⟩ := hall q hq
      exact ⟨hqne, trieMem_buildTrie.mp hqmem⟩

/-- Witness for C2: aa, confirmed from the dictionary a, aa, splits into
two copies of a. -/
theorem c2_confirmed_has_partition_witness :
    (∃ parts : List Word, 2 ≤ parts.length ∧ parts.flatten = [0, 0] ∧
      ∀ p ∈ parts, p ≠ [] ∧ p ∈ ([[0], [0, 0]] : List Word)) ∧
    (runProgram [[0], [0, 0]]).total = (confirmedWords [[0], [0, 0]]).length ∧
    [0, 0] ∈ confirmedWords [[0], [0, 0]] :=
  c2_confirmed_has_partition [[0], [0, 0]] (by decide) [0, 0] (by decide)

/-- C3 counterexample: the distinct words cat, dog, catdog inserted in this
order confirm catdog (total 1, longest catdog), but the permuted order
catdog, cat, dog confirms nothing (total 0, longest none): insertion order
does change the outputs. -/
theorem c3_counterexample :
    List.Perm ([[2,0,19],[3,14,6],[2,0,19,3,14,6]] : List Word)
      [[2,0,19,3,14,6],[2,0,19],[3,14,6]] ∧
    ([[2,0,19],[3,14,6],[2,0,19,3,14,6]] : List Word).Nodup ∧
    (runProgram [[2,0,19],[3,14,6],[2,0,19,3,14,6]]).total = 1 ∧
    (runProgram [[2,0,19],[3,14,6],[2,0,19,3,14,6]]).longest = some [2,0,19,3,14,6] ∧
    (runProgram [[2,0,19,3,14,6],[2,0,19],[3,14,6]]).total = 0 ∧
    (runProgram [[2,0,19,3,14,6],[2,0,19],[3,14,6]]).longest = none :=
  ⟨by decide, by decide, by decide, by decide, by decide, by decide⟩

/-- C3 amended: inserting the same set of distinct words in any order yields
the same finished trie, hence the same dictionary membership; the set of
confirmed concatenated words, the longest and second-longest outputs and the
total count, however, may depend on the order (see the counterexample). -/
theorem c3_amended_trie_perm (l1 l2 : List Word) (hnd : l1.Nodup) (h : l1.Perm l2) :
    (buildTrie l1).1 = (buildTrie l2).1 := by
  have h1 : (buildTrie l1).1 = l1.foldl insertWord emptyTrie := buildTrie_fst_eq l1 emptyTrie []
  have h2 : (buildTrie l2).1 = l2.foldl insertWord emptyTrie := buildTrie_fst_eq l2 emptyTrie []
  rw [h1, h2, foldl_insertWord_perm h emptyTrie]

/-- Witness for the amended C3 at a concrete permutation. -/
theorem c3_amended_trie_perm_witness :
    (buildTrie [[0],[1]]).1 = (buildTrie [[1],[0]]).1 :=
  c3_amended_trie_perm [[0],[1]] [[1],[0]] (by decide) (by decide)

/-- C4: a confirmed word strictly longer than the current longest demotes
the longest to second-longest and becomes the new longest; otherwise, when
strictly longer than the current second-longest it becomes the new
second-longest; a word whose length ties the current holder never replaces
that holder. -/
theorem c4_update_rules (r : Rank) (word : Word) :
    (word.length > r.longest_len →
      (updateRank r word).longest = some word ∧
      (updateRank r word).longest_len = word.length ∧
      (updateRank r word).oldlongest = r.longest ∧
      (updateRank r word).oldlongest_len = r.longest_len) ∧
    (¬word.length > r.longest_len → word.length > r.oldlongest_len →
      (updateRank r word).longest = r.longest ∧
      (updateRank r word).longest_len = r.longest_len ∧
      (updateRank r word).oldlongest = some word ∧
      (updateRank r word).oldlongest_len = word.length) ∧
    (word.length = r.longest_len →
      (updateRank r word).longest = r.longest ∧
      (updateRank r word).longest_len = r.longest_len) ∧
    (word.length = r.oldlongest_len → ¬word.length > r.longest_len →
      (updateRank r word).oldlongest = r.oldlongest ∧
      (updateRank r word).oldlongest_len = r.oldlongest_len) := by
  refine ⟨?_, ?_, ?_, ?_⟩
  · intro hA
    rw [updateRank_gt hA]
    exact ⟨rfl, rfl, rfl, rfl⟩
  · intro hA hB
    rw [updateRank_mid hA hB]
    exact ⟨rfl, rfl, rfl, rfl⟩
  · intro hEq
    have hA : ¬word.length > r.longest_len := by omega
    by_cases hB : word.length > r.oldlongest_len
    · rw [updateRank_mid hA hB]
      exact ⟨rfl, rfl⟩
    · rw [updateRank_le hA hB]
      exact ⟨rfl, rfl⟩
  · intro hEq hA
    have hB : ¬word.length > r.oldlongest_len := by omega
    rw [updateRank_le hA hB]
    exact ⟨rfl, rfl⟩

/-- Witness for C4: all four rules at concrete ranking states. -/
theorem c4_update_rules_witness :
    (updateRank initRank [0]).longest = some [0] ∧
    (updateRank ⟨some [0,1], 2, none, 0, 1⟩ [2]).oldlongest = some [2] ∧
    (updateRank ⟨some [0,1], 2, none, 0, 1⟩ [2,2]).longest = some [0,1] ∧
    (updateRank ⟨some [0,1], 2, some [3,3], 2, 2⟩ [4,4]).oldlongest = some [3,3] :=
  ⟨((c4_update_rules initRank [0]).1 (by decide)).1,
   ((c4_update_rules ⟨some [0,1], 2, none, 0, 1⟩ [2]).2.1 (by decide) (by decide)).2.2.1,
   ((c4_update_rules ⟨some [0,1], 2, none, 0, 1⟩ [2,2]).2.2.1 (by decide)).1,
   ((c4_update_rules ⟨some [0,1], 2, some [3,3], 2, 2⟩ [4,4]).2.2.2 (by decide) (by decide)).1⟩

/-- C5: a pending record is counted exactly once, at the first suffix of its
missing list accepted by the matcher, even when later suffixes would also
match; a record none of whose suffixes match leaves the ranking state
unchanged. -/
theorem c5_first_suffix_once (root : Trie) (word : Word) (ms ms1 ms2 : List Word)
    (m : Word) (r : Rank)
    (hsplit : ms = ms1 ++ m :: ms2)
    (hfirst : ∀ x ∈ ms1, is_in_trie root (some root) x = false)
    (hm : is_in_trie root (some root) m = true) :
    (processMissing root word ms false r = updateRank r word ∧
      (processMissing root word ms false r).total = r.total + 1) ∧
    ∀ ms' : List Word, (∀ x ∈ ms', is_in_trie root (some root) x = false) →
      processMissing root word ms' false r = r := by
  constructor
  · have hany : ms.any (fun x => is_in_trie root (some root) x) = true := by
      refine List.any_eq_true.mpr ⟨m, ?_, hm⟩
      rw [hsplit]
      exact List.mem_append_right ms1 (List.mem_cons_self m ms2)
    rw [processMissing_eq, if_pos hany]
    exact ⟨rfl, updateRank_total r word⟩
  · intro ms' hnone
    have hany : ms'.any (fun x => is_in_trie root (some root) x) = false := by
      rw [List.any_eq_false]
      intro x hx
      rw [hnone x hx]
      simp
    rw [processMissing_eq, hany]
    simp

/-- Witness for C5: dictionary a, record for aa with suffixes b, a, a —
the b suffix fails, the first a matches, the second a is not re-counted. -/
theorem c5_first_suffix_once_witness :
    (processMissing (buildTrie [[0]]).1 [0,0] [[1],[0],[0]] false initRank =
        updateRank initRank [0,0] ∧
      (processMissing (buildTrie [[0]]).1 [0,0] [[1],[0],[0]] false initRank).total =
        initRank.total + 1) ∧
    ∀ ms' : List Word,
      (∀ x ∈ ms', is_in_trie (buildTrie [[0]]).1 (some (buildTrie [[0]]).1) x = false) →
      processMissing (buildTrie [[0]]).1 [0,0] ms' false initRank = initRank :=
  c5_first_suffix_once (buildTrie [[0]]).1 [0,0] [[1],[0],[0]] [[1]] [[0]] [0] initRank
    (by decide) (by decide) (by decide)

/-- C6 counterexample: no input of non-empty words has total at least 2 and
the second-longest slot still empty — a second confirmed word always has
positive length and therefore occupies the slot. -/
theorem c6_counterexample :
    ¬∃ ws : List Word, (∀ w ∈ ws, w ≠ []) ∧ 2 ≤ (runProgram ws).total ∧
      (runProgram ws).oldlongest = none := by
  rintro ⟨ws, hws, h2, hnone⟩
  have h := total_two_oldlongest_isSome hws h2
  rw [hnone] at h
  exact absurd h (by simp)

/-- C6 amended: whenever at least two concatenated words are counted the
second-longest slot is occupied; the none-found marker can survive only with
total at most 1, as in the dictionary cat, dog, catdog where the single
confirmed word catdog leaves the second-longest slot empty. -/
theorem c6_amended_second_slot (ws : List Word) (hws : ∀ w ∈ ws, w ≠ [])
    (h2 : 2 ≤ (runProgram ws).total) :
    (runProgram ws).oldlongest ≠ none ∧
    ((runProgram [[2,0,19],[3,14,6],[2,0,19,3,14,6]]).total = 1 ∧
      (runProgram [[2,0,19],[3,14,6],[2,0,19,3,14,6]]).oldlongest = none) := by
  refine ⟨?_, by decide, by decide⟩
  intro hn
  have h := total_two_oldlongest_isSome hws h2
  rw [hn] at h
  exact absurd h (by simp)

/-- Witness for the amended C6 at the dictionary a, aa, aaa (total 2). -/
theorem c6_amended_second_slot_witness :
    (runProgram [[0],[0,0],[0,0,0]]).oldlongest ≠ none ∧
    ((runProgram [[2,0,19],[3,14,6],[2,0,19,3,14,6]]).total = 1 ∧
      (runProgram [[2,0,19],[3,14,6],[2,0,19,3,14,6]]).oldlongest = none) :=
  c6_amended_second_slot [[0],[0,0],[0,0,0]] (by decide) (by decide)

/-- C7: on the input a, aa, aaa the program confirms aa and aaa, reporting
longest aaa, second-longest aa and total 2; the matcher accepts aa against
the finished trie although aa can only be built from copies of a shorter
word, so self-referential concatenation is allowed. -/
theorem c7_scenario_b :
    (runProgram [[0],[0,0],[0,0,0]]).longest = some [0,0,0] ∧
    (runProgram [[0],[0,0],[0,0,0]]).oldlongest = some [0,0] ∧
    (runProgram [[0],[0,0],[0,0,0]]).total = 2 ∧
    confirmedWords [[0],[0,0],[0,0,0]] = [[0,0,0],[0,0]] ∧
    is_in_trie (buildTrie [[0],[0,0],[0,0,0]]).1
      (some (buildTrie [[0],[0,0],[0,0,0]]).1) [0,0] = true :=
  ⟨by decide, by decide, by decide, by decide, by decide⟩

/-- C8: the empty dictionary and every one-word dictionary yield total 0 and
both ranking slots as the none-found marker. -/
theorem c8_boundary :
    (runProgram [] = initRank ∧ (runProgram ([] : List Word)).longest = none ∧
      (runProgram ([] : List Word)).oldlongest = none ∧
      (runProgram ([] : List Word)).total = 0) ∧
    ∀ w : Word, (runProgram [w]).longest = none ∧
      (runProgram [w]).oldlongest = none ∧ (runProgram [w]).total = 0 := by
  constructor
  · exact ⟨rfl, rfl, rfl, rfl⟩
  · intro w
    have h2 : (insert emptyTrie w []).2 = [] := insert_empty_snd w []
    have hp : (buildTrie [w]).2 = [] := by
      show (buildStep (emptyTrie, []) w).2 = []
      unfold buildStep
      dsimp only
      rw [h2]
      rfl
    have hrun : runProgram [w] = initRank := by
      show ((buildTrie [w]).2.foldl
        (fun r pr => processMissing (buildTrie [w]).1 pr.1 pr.2 false r) initRank) = initRank
      rw [hp]
      rfl
    rw [hrun]
    exact ⟨rfl, rfl, rfl⟩

/-- C9: building a trie from non-empty words leaves the root's word_end
flag false, and each single insertion of a non-empty word preserves the
root's word_end flag: the flag is set only after consuming the last letter
of a non-empty word. -/
theorem c9_root_word_end (ws : List Word) (hws : ∀ w ∈ ws, w ≠ []) :
    (buildTrie ws).1.word_end = false ∧
    ∀ (t : Trie) (c : Letter) (rest : Word),
      ((insert t (c :: rest) []).1).word_end = t.word_end :=
  ⟨buildTrie_word_end hws, fun t c rest => insert_word_end t c rest []⟩

/-- Witness for C9 at the dictionary a, aa. -/
theorem c9_root_word_end_witness : (buildTrie [[0],[0,0]]).1.word_end = false :=
  (c9_root_word_end [[0],[0,0]] (by decide)).1

/-- C10: on the input ca, t, cat, cat the duplicated word cat produces two
pending records, each confirmed separately, so the total 2 exceeds the
number of distinct confirmed words. -/
theorem c10_duplicates_counted :
    (buildTrie [[2,0],[19],[2,0,19],[2,0,19]]).2.length = 2 ∧
    (runProgram [[2,0],[19],[2,0,19],[2,0,19]]).total = 2 ∧
    confirmedWords [[2,0],[19],[2,0,19],[2,0,19]] = [[2,0,19],[2,0,19]] ∧
    (confirmedWords [[2,0],[19],[2,0,19],[2,0,19]]).dedup.length <
      (runProgram [[2,0],[19],[2,0,19],[2,0,19]]).total :=
  ⟨by decide, by decide, by decide, by decide⟩

end LongestWord
